import Mathlib

/-!
Verification development for the speech-segment detection engine
(`detect_segments` in `src/audio/processing.py`).

Numbers are embedded as exact rationals (`ℚ`): Python's float arithmetic on
the small decimal quantities involved (timestamps, paddings, 2-decimal
rounding) is modelled exactly.  Python's builtin `round(x, 2)` uses
round-half-to-even; `round2` below reproduces it on `ℚ`.

The external `webrtcvad` classifier (`vad.is_speech`) is modelled as an
injected function of type `VadFn` that may fail (`Except`), matching the
`try/except` at lines 56-60 of the source.  The pydub normalisation calls
(`set_channels` / `set_frame_rate`, lines 34-36) are external library code;
the embedding therefore takes the already-normalised buffer: its
`frame_rate`, `sample_width` and `raw_data` are the values read at lines
37-39 of the source.  Everything from line 24 (the `chunk_ms` kwarg) and
lines 41-99 is embedded directly.
-/

/-- Python's builtin rounding of a rational to the nearest integer,
round-half-to-even (banker's rounding). -/
def roundHalfEven (x : ℚ) : ℤ :=
  if x - ⌊x⌋ < 1/2 then ⌊x⌋
  else if 1/2 < x - ⌊x⌋ then ⌊x⌋ + 1
  else if ⌊x⌋ % 2 = 0 then ⌊x⌋ else ⌊x⌋ + 1

/-- Python's `round(x, 2)`: round to 2 decimal places, half to even. -/
def round2 (x : ℚ) : ℚ := (roundHalfEven (x * 100) : ℚ) / 100

theorem roundHalfEven_intCast (n : ℤ) : roundHalfEven (n : ℚ) = n := by
  unfold roundHalfEven
  rw [Int.floor_intCast]
  norm_num

theorem floor_le_roundHalfEven (x : ℚ) : ⌊x⌋ ≤ roundHalfEven x := by
  unfold roundHalfEven
  split_ifs <;> omega

theorem roundHalfEven_le_floor_add_one (x : ℚ) : roundHalfEven x ≤ ⌊x⌋ + 1 := by
  unfold roundHalfEven
  split_ifs <;> omega

theorem roundHalfEven_mono {x y : ℚ} (h : x ≤ y) :
    roundHalfEven x ≤ roundHalfEven y := by
  rcases lt_or_eq_of_le (Int.floor_le_floor h) with hf | hf
  · calc roundHalfEven x ≤ ⌊x⌋ + 1 := roundHalfEven_le_floor_add_one x
    _ ≤ ⌊y⌋ := by omega
    _ ≤ roundHalfEven y := floor_le_roundHalfEven y
  · unfold roundHalfEven
    rw [← hf]
    split_ifs <;> first | omega | (exfalso; linarith)

theorem round2_mono {x y : ℚ} (h : x ≤ y) : round2 x ≤ round2 y := by
  unfold round2
  have h1 : x * 100 ≤ y * 100 := by linarith
  have h2 : ((roundHalfEven (x * 100) : ℤ) : ℚ) ≤ ((roundHalfEven (y * 100) : ℤ) : ℚ) := by
    exact_mod_cast roundHalfEven_mono h1
  have h100 : (0 : ℚ) < 100 := by norm_num
  exact (div_le_div_iff_of_pos_right h100).mpr h2

theorem round2_round2 (x : ℚ) : round2 (round2 x) = round2 x := by
  unfold round2
  have h : ((roundHalfEven (x * 100) : ℤ) : ℚ) / 100 * 100
      = ((roundHalfEven (x * 100) : ℤ) : ℚ) := by
    field_simp
  rw [h, roundHalfEven_intCast]

/-- Division by a nonnegative rational is monotone (division by zero is the
constant `0` map, which is trivially monotone). -/
theorem qdiv_mono {a b c : ℚ} (h : a ≤ b) (hc : 0 ≤ c) : a / c ≤ b / c := by
  rcases eq_or_lt_of_le hc with h0 | h0
  · rw [← h0]
    simp
  · exact (div_le_div_iff_of_pos_right h0).mpr h

/-- A speech segment: the dict `\x7b"start": ..., "end": ...\x7d` built by
`detect_segments`.  The field `stop` embeds the `"end"` key (`end` is a Lean
keyword). -/
structure Segment where
  start : ℚ
  stop : ℚ
deriving DecidableEq

/-- The normalised audio buffer as read at lines 37-39 of
`src/audio/processing.py`: `sample_rate = audio.frame_rate`,
`sample_width = audio.sample_width`, `raw_audio = audio.raw_data`
(bytes modelled as a list of naturals). -/
structure AudioBuffer where
  frame_rate : ℕ
  sample_width : ℕ
  raw_data : List ℕ
deriving DecidableEq

/-- The external `webrtcvad` classifier `vad.is_speech(frame, sample_rate)`,
injected as a capability: it receives the frame bytes and the sample rate
and either returns a verdict or raises (`Except.error`). -/
def VadFn : Type := List ℕ → ℕ → Except Unit Bool

/-- Lines 24-31: the `chunk_ms` kwarg overrides `frame_duration_ms`, then any
value outside `\x7b10, 20, 30\x7d` is replaced by 30. -/
def effectiveFd (frame_duration_ms : ℤ) (chunk_ms : Option ℤ) : ℤ :=
  let fd0 := match chunk_ms with
    | some c => c
    | none => frame_duration_ms
  if fd0 = 10 ∨ fd0 = 20 ∨ fd0 = 30 then fd0 else 30

/-- Line 30: the warning printed when the (possibly `chunk_ms`-overridden)
frame duration is not one of 10, 20, 30 ms. -/
def detect_segments_warns (frame_duration_ms : ℤ) (chunk_ms : Option ℤ) : Bool :=
  let fd0 := match chunk_ms with
    | some c => c
    | none => frame_duration_ms
  decide (¬(fd0 = 10 ∨ fd0 = 20 ∨ fd0 = 30))

/-- Lines 46-51: split the raw bytes into frames of exactly `frame_bytes`
bytes.  The Python loop `for i in range(0, len(raw_audio) - frame_bytes + 1,
frame_bytes)` visits `i = k * frame_bytes` for `k < len(raw_audio) /
frame_bytes` (floor division) when `frame_bytes > 0`; a trailing partial
frame is discarded.  (For `frame_bytes = 0` Python's `range` would raise;
that requires `sample_rate = 0` or `sample_width = 0`, impossible after
normalisation; the embedding then produces no frames.)  Each frame carries
`timestamp = i / (sample_rate * sample_width)`. -/
def framesOf (sample_rate sample_width : ℕ) (raw_audio : List ℕ)
    (frame_bytes : ℕ) : List (ℚ × List ℕ) :=
  (List.range (raw_audio.length / frame_bytes)).map fun k =>
    (((k * frame_bytes : ℕ) : ℚ) / ((sample_rate * sample_width : ℕ) : ℚ),
     (raw_audio.drop (k * frame_bytes)).take frame_bytes)

/-- Lines 53-61: label each frame with the classifier; if the classifier
raises, the frame is labelled non-speech (`False`) and processing
continues. -/
def speechFlags (vad : VadFn) (sample_rate : ℕ) (fs : List (ℚ × List ℕ)) :
    List (ℚ × Bool) :=
  fs.map fun f =>
    (f.1, match vad f.2 sample_rate with
      | Except.ok b => b
      | Except.error _ => false)

/-- The mutable state of the aggregation loop (lines 64-66): the emitted
segments, `segment_start` and `last_speech_timestamp`. -/
structure AggState where
  segments : List Segment
  segment_start : Option ℚ
  last_speech_timestamp : Option ℚ

/-- One iteration of the aggregation loop (lines 67-79). -/
def aggStep (post_speech_padding_sec : ℚ) (st : AggState) (f : ℚ × Bool) :
    AggState :=
  if f.2 = true then
    ⟨st.segments,
     (match st.segment_start with
      | none => some (round2 f.1)
      | some s => some s),
     some f.1⟩
  else
    match st.segment_start, st.last_speech_timestamp with
    | some s, some l =>
        ⟨st.segments ++ [⟨round2 s, round2 (l + post_speech_padding_sec)⟩],
         none, none⟩
    | _, _ => st

/-- Lines 63-79: fold the aggregation loop over the labelled frames. -/
def aggregate (post_speech_padding_sec : ℚ) (flags : List (ℚ × Bool)) :
    AggState :=
  List.foldl (aggStep post_speech_padding_sec) ⟨[], none, none⟩ flags

/-- Lines 80-85: if a speech run is still open at end of stream, emit a
final segment ending at the buffer's total duration. -/
def closeFinal (total_duration : ℚ) (st : AggState) : List Segment :=
  match st.segment_start with
  | some s => st.segments ++ [⟨round2 s, round2 total_duration⟩]
  | none => st.segments

/-- The inner sweep of the gap merger (lines 90-97): `current` is the
running segment, the list is the remaining `segments[1:]` suffix. -/
def mergeGo (thr : ℚ) (current : Segment) : List Segment → List Segment
  | [] => [current]
  | seg :: rest =>
    if seg.start - current.stop < thr then
      mergeGo thr ⟨current.start, round2 seg.stop⟩ rest
    else
      current :: mergeGo thr seg rest

/-- Lines 87-99: merge segments separated by less than
`padding_duration_ms / 1000` seconds; empty input yields empty output. -/
def mergeSegments (padding_duration_ms : ℚ) : List Segment → List Segment
  | [] => []
  | s :: rest => mergeGo (padding_duration_ms / 1000) s rest

/-- `total_duration = len(raw_audio) / (sample_rate * sample_width)`
(line 81). -/
def totalDuration (buf : AudioBuffer) : ℚ :=
  ((buf.raw_data.length : ℕ) : ℚ) / ((buf.frame_rate * buf.sample_width : ℕ) : ℚ)

/-- `frame_bytes = frame_size * sample_width` with
`frame_size = int(sample_rate * frame_duration_ms / 1000)` (lines 43-44),
after the `chunk_ms` override and the clamp to 30 ms. -/
def frameBytesOf (buf : AudioBuffer) (frame_duration_ms : ℤ)
    (chunk_ms : Option ℤ) : ℕ :=
  buf.frame_rate * (effectiveFd frame_duration_ms chunk_ms).toNat / 1000
    * buf.sample_width

/-- The labelled frame stream of a call to `detect_segments`
(lines 41-61). -/
def flagsOf (vad : VadFn) (buf : AudioBuffer) (frame_duration_ms : ℤ)
    (chunk_ms : Option ℤ) : List (ℚ × Bool) :=
  speechFlags vad buf.frame_rate
    (framesOf buf.frame_rate buf.sample_width buf.raw_data
      (frameBytesOf buf frame_duration_ms chunk_ms))

/-- `detect_segments` (lines 12-99 of `src/audio/processing.py`), with the
external classifier injected as `vad` (the source builds it from
`aggressiveness`, which affects only that external object) and the
`chunk_ms` kwarg as an optional argument.  Source defaults:
`frame_duration_ms=30`, `padding_duration_ms=300`,
`post_speech_padding_sec=0.2`, no `chunk_ms`. -/
def detect_segments (vad : VadFn) (buf : AudioBuffer) (frame_duration_ms : ℤ)
    (padding_duration_ms post_speech_padding_sec : ℚ)
    (chunk_ms : Option ℤ) : List Segment :=
  mergeSegments padding_duration_ms
    (closeFinal (totalDuration buf)
      (aggregate post_speech_padding_sec
        (flagsOf vad buf frame_duration_ms chunk_ms)))

/-- Both boundaries of a segment are fixed points of 2-decimal rounding. -/
def StableSeg (s : Segment) : Prop :=
  round2 s.start = s.start ∧ round2 s.stop = s.stop

theorem aggLoop_stable (post : ℚ) :
    ∀ (flags : List (ℚ × Bool)) (segs : List Segment) (ss ls : Option ℚ),
      (∀ s ∈ segs, StableSeg s) →
      (∀ s, ss = some s → round2 s = s) →
      (∀ s ∈ (List.foldl (aggStep post) ⟨segs, ss, ls⟩ flags).segments,
          StableSeg s) ∧
      (∀ s, (List.foldl (aggStep post) ⟨segs, ss, ls⟩ flags).segment_start
          = some s → round2 s = s) := by
  intro flags
  induction flags with
  | nil =>
    intro segs ss ls h1 h2
    exact ⟨h1, h2⟩
  | cons f rest ih =>
    intro segs ss ls h1 h2
    rw [List.foldl_cons]
    obtain ⟨t, b⟩ := f
    cases b with
    | true =>
      cases ss with
      | none =>
        have he : aggStep post ⟨segs, none, ls⟩ (t, true)
            = ⟨segs, some (round2 t), some t⟩ := rfl
        rw [he]
        refine ih segs _ _ h1 ?_
        intro s hs
        cases hs
        exact round2_round2 t
      | some s0 =>
        have he : aggStep post ⟨segs, some s0, ls⟩ (t, true)
            = ⟨segs, some s0, some t⟩ := rfl
        rw [he]
        exact ih segs _ _ h1 h2
    | false =>
      cases ss with
      | none =>
        have he : aggStep post ⟨segs, none, ls⟩ (t, false)
            = ⟨segs, none, ls⟩ := rfl
        rw [he]
        exact ih segs _ _ h1 h2
      | some s0 =>
        cases ls with
        | none =>
          have he : aggStep post ⟨segs, some s0, none⟩ (t, false)
              = ⟨segs, some s0, none⟩ := rfl
          rw [he]
          exact ih segs _ _ h1 h2
        | some l0 =>
          have he : aggStep post ⟨segs, some s0, some l0⟩ (t, false)
              = ⟨segs ++ [⟨round2 s0, round2 (l0 + post)⟩], none, none⟩ := rfl
          rw [he]
          refine ih _ _ _ ?_ ?_
          · intro s hs
            rcases List.mem_append.mp hs with hs | hs
            · exact h1 s hs
            · rcases List.mem_singleton.mp hs with rfl
              exact ⟨round2_round2 s0, round2_round2 (l0 + post)⟩
          · intro s hs
            cases hs

theorem closeFinal_stable (T : ℚ) (st : AggState)
    (h1 : ∀ s ∈ st.segments, StableSeg s)
    (h2 : ∀ s, st.segment_start = some s → round2 s = s) :
    ∀ s ∈ closeFinal T st, StableSeg s := by
  cases hss : st.segment_start with
  | none =>
    intro s hs
    unfold closeFinal at hs
    rw [hss] at hs
    exact h1 s hs
  | some s0 =>
    intro s hs
    unfold closeFinal at hs
    rw [hss] at hs
    rcases List.mem_append.mp hs with hs | hs
    · exact h1 s hs
    · rcases List.mem_singleton.mp hs with rfl
      exact ⟨round2_round2 s0, round2_round2 T⟩

theorem mergeGo_stable (thr : ℚ) :
    ∀ (rest : List Segment) (cur : Segment), StableSeg cur →
      (∀ s ∈ rest, StableSeg s) →
      ∀ s ∈ mergeGo thr cur rest, StableSeg s := by
  intro rest
  induction rest with
  | nil =>
    intro cur hc _ s hs
    rcases List.mem_singleton.mp hs with rfl
    exact hc
  | cons seg rest ih =>
    intro cur hc hr s hs
    rw [mergeGo] at hs
    split at hs
    · refine ih ⟨cur.start, round2 seg.stop⟩ ⟨hc.1, round2_round2 seg.stop⟩
        (fun x hx => hr x (List.mem_cons_of_mem _ hx)) s hs
    · rcases List.mem_cons.mp hs with rfl | hs
      · exact hc
      · exact ih seg (hr seg (List.mem_cons_self _ _))
          (fun x hx => hr x (List.mem_cons_of_mem _ hx)) s hs

theorem mergeSegments_stable (pad : ℚ) (l : List Segment)
    (h : ∀ s ∈ l, StableSeg s) :
    ∀ s ∈ mergeSegments pad l, StableSeg s := by
  cases l with
  | nil =>
    intro s hs
    cases hs
  | cons a rest =>
    exact mergeGo_stable (pad / 1000) rest a (h a (List.mem_cons_self _ _))
      (fun x hx => h x (List.mem_cons_of_mem _ hx))

theorem detect_segments_stable (vad : VadFn) (buf : AudioBuffer) (fd : ℤ)
    (pad post : ℚ) (cm : Option ℤ) :
    ∀ s ∈ detect_segments vad buf fd pad post cm, StableSeg s := by
  unfold detect_segments aggregate
  apply mergeSegments_stable
  apply closeFinal_stable
  · exact (aggLoop_stable post (flagsOf vad buf fd cm) [] none none
      (by intro s hs; cases hs) (by intro s hs; cases hs)).1
  · exact (aggLoop_stable post (flagsOf vad buf fd cm) [] none none
      (by intro s hs; cases hs) (by intro s hs; cases hs)).2

/-- Well-formed segment: stable boundaries and `start <= end`. -/
def SegWF (s : Segment) : Prop :=
  round2 s.start = s.start ∧ round2 s.stop = s.stop ∧ s.start ≤ s.stop

/-- Well-formed raw segment list: every member well-formed, starts in
nondecreasing order. -/
def SegsWF (l : List Segment) : Prop :=
  (∀ s ∈ l, SegWF s) ∧ l.Pairwise (fun a b => a.start ≤ b.start)

theorem mergeGo_wf (thr : ℚ) (hthr : 0 ≤ thr) :
    ∀ (rest : List Segment) (cur : Segment), SegWF cur →
      (∀ s ∈ rest, SegWF s ∧ cur.start ≤ s.start) →
      rest.Pairwise (fun a b => a.start ≤ b.start) →
      ∃ z out, mergeGo thr cur rest = z :: out ∧ z.start = cur.start ∧
        (∀ s ∈ z :: out, SegWF s) ∧
        (z :: out).Chain' (fun a b => a.stop ≤ b.start) := by
  intro rest
  induction rest with
  | nil =>
    intro cur hc _ _
    refine ⟨cur, [], rfl, rfl, ?_, List.chain'_singleton cur⟩
    intro s hs
    rcases List.mem_singleton.mp hs with rfl
    exact hc
  | cons seg rest ih =>
    intro cur hc hr hp
    rw [mergeGo]
    rcases hr seg (List.mem_cons_self _ _) with ⟨hsegwf, hcs⟩
    by_cases hm : seg.start - cur.stop < thr
    · rw [if_pos hm]
      have hcur2 : SegWF ⟨cur.start, round2 seg.stop⟩ := by
        refine ⟨hc.1, round2_round2 seg.stop, ?_⟩
        have h1 : round2 seg.stop = seg.stop := hsegwf.2.1
        rw [h1]
        exact le_trans hcs hsegwf.2.2
      have hr2 : ∀ s ∈ rest, SegWF s ∧
          (Segment.mk cur.start (round2 seg.stop)).start ≤ s.start := by
        intro s hs
        exact ⟨(hr s (List.mem_cons_of_mem _ hs)).1,
          (hr s (List.mem_cons_of_mem _ hs)).2⟩
      exact ih ⟨cur.start, round2 seg.stop⟩ hcur2 hr2 (List.Pairwise.of_cons hp)
    · rw [if_neg hm]
      have hr2 : ∀ s ∈ rest, SegWF s ∧ seg.start ≤ s.start := by
        intro s hs
        exact ⟨(hr s (List.mem_cons_of_mem _ hs)).1,
          (List.pairwise_cons.mp hp).1 s hs⟩
      rcases ih seg hsegwf hr2 (List.Pairwise.of_cons hp) with
        ⟨z, out, heq, hzs, hwf, hch⟩
      refine ⟨cur, z :: out, by rw [heq], rfl, ?_, ?_⟩
      · intro s hs
        rcases List.mem_cons.mp hs with rfl | hs
        · exact hc
        · exact hwf s hs
      · rw [List.chain'_cons]
        refine ⟨?_, hch⟩
        rw [hzs]
        have : thr ≤ seg.start - cur.stop := le_of_not_lt hm
        linarith

theorem mergeSegments_wf (pad : ℚ) (hpad : 0 ≤ pad) (l : List Segment)
    (hl : SegsWF l) :
    (∀ s ∈ mergeSegments pad l, SegWF s) ∧
    (mergeSegments pad l).Chain' (fun a b => a.stop ≤ b.start) := by
  cases l with
  | nil =>
    constructor
    · intro s hs
      cases hs
    · exact List.chain'_nil
  | cons a rest =>
    have hthr : (0 : ℚ) ≤ pad / 1000 := by
      apply div_nonneg hpad
      norm_num
    have hr : ∀ s ∈ rest, SegWF s ∧ a.start ≤ s.start := by
      intro s hs
      exact ⟨hl.1 s (List.mem_cons_of_mem _ hs),
        (List.pairwise_cons.mp hl.2).1 s hs⟩
    rcases mergeGo_wf (pad / 1000) hthr rest a (hl.1 a (List.mem_cons_self _ _))
      hr (List.Pairwise.of_cons hl.2) with ⟨z, out, heq, _, hwf, hch⟩
    rw [mergeSegments, heq]
    exact ⟨hwf, hch⟩

/-- Invariant of the aggregation loop, relative to the ambient total
duration `T` and the post-speech padding: the emitted raw segments are
well-formed and sorted, and an open run's recorded start is bounded by the
rounded total duration, by the rounded last speech timestamp, and by that
timestamp plus the padding. -/
def StInv (post T : ℚ) (st : AggState) : Prop :=
  SegsWF st.segments ∧
  ∀ s, st.segment_start = some s →
    round2 s = s ∧ s ≤ round2 T ∧ (∀ seg ∈ st.segments, seg.start ≤ s) ∧
    ∃ l, st.last_speech_timestamp = some l ∧ s ≤ round2 l ∧
      s ≤ round2 (l + post)

theorem aggLoop_wf (post T : ℚ) (hpost : 0 ≤ post) :
    ∀ (flags : List (ℚ × Bool)) (st : AggState),
      flags.Pairwise (fun a b => a.1 ≤ b.1) →
      (∀ f ∈ flags, f.1 ≤ T) →
      StInv post T st →
      (∀ seg ∈ st.segments, ∀ f ∈ flags, seg.start ≤ round2 f.1) →
      (∀ l, st.last_speech_timestamp = some l → ∀ f ∈ flags, l ≤ f.1) →
      (∀ s, st.segment_start = some s → ∀ f ∈ flags, s ≤ round2 f.1) →
      StInv post T (List.foldl (aggStep post) st flags) := by
  intro flags
  induction flags with
  | nil =>
    intro st _ _ hinv _ _ _
    exact hinv
  | cons f rest ih =>
    intro st hmono hle hinv hseg hlast hstart
    obtain ⟨segs, ss, ls⟩ := st
    obtain ⟨t, b⟩ := f
    rcases List.pairwise_cons.mp hmono with ⟨hhead, hmono2⟩
    have hleT : t ≤ T := hle (t, b) (List.mem_cons_self _ _)
    have hle2 : ∀ g ∈ rest, g.1 ≤ T := fun g hg =>
      hle g (List.mem_cons_of_mem _ hg)
    have hseg2 : ∀ seg ∈ segs, ∀ g ∈ rest, seg.start ≤ round2 g.1 :=
      fun seg hs g hg => hseg seg hs g (List.mem_cons_of_mem _ hg)
    rcases hinv with ⟨hwf, hss⟩
    rw [List.foldl_cons]
    cases b with
    | true =>
      cases ss with
      | none =>
        have he : aggStep post ⟨segs, none, ls⟩ (t, true)
            = ⟨segs, some (round2 t), some t⟩ := rfl
        rw [he]
        refine ih ⟨segs, some (round2 t), some t⟩ hmono2 hle2 ⟨hwf, ?_⟩
          hseg2 ?_ ?_
        · intro s hs
          rcases Option.some.inj hs with rfl
          refine ⟨round2_round2 t, round2_mono hleT, ?_, t, rfl, le_refl _, ?_⟩
          · intro seg hsg
            exact hseg seg hsg (t, true) (List.mem_cons_self _ _)
          · exact round2_mono (by linarith)
        · intro l hl g hg
          rcases Option.some.inj hl with rfl
          exact hhead g hg
        · intro s hs g hg
          rcases Option.some.inj hs with rfl
          exact round2_mono (hhead g hg)
      | some s0 =>
        have he : aggStep post ⟨segs, some s0, ls⟩ (t, true)
            = ⟨segs, some s0, some t⟩ := rfl
        rw [he]
        rcases hss s0 rfl with ⟨hr2s0, hs0T, hs0segs, l0, hls0, hs0l0, _⟩
        have hl0t : l0 ≤ t := hlast l0 hls0 (t, true) (List.mem_cons_self _ _)
        refine ih ⟨segs, some s0, some t⟩ hmono2 hle2 ⟨hwf, ?_⟩ hseg2 ?_ ?_
        · intro s hs
          rcases Option.some.inj hs with rfl
          refine ⟨hr2s0, hs0T, hs0segs, t, rfl, ?_, ?_⟩
          · exact le_trans hs0l0 (round2_mono hl0t)
          · exact le_trans hs0l0 (round2_mono (by linarith))
        · intro l hl g hg
          rcases Option.some.inj hl with rfl
          exact hhead g hg
        · intro s hs g hg
          rcases Option.some.inj hs with rfl
          exact hstart s0 rfl g (List.mem_cons_of_mem _ hg)
    | false =>
      cases ss with
      | none =>
        have he : aggStep post ⟨segs, none, ls⟩ (t, false)
            = ⟨segs, none, ls⟩ := rfl
        rw [he]
        refine ih ⟨segs, none, ls⟩ hmono2 hle2 ⟨hwf, ?_⟩ hseg2 ?_ ?_
        · intro s hs
          cases hs
        · intro l hl g hg
          exact hlast l hl g (List.mem_cons_of_mem _ hg)
        · intro s hs
          cases hs
      | some s0 =>
        cases ls with
        | none =>
          rcases hss s0 rfl with ⟨_, _, _, l0, hls0, _, _⟩
          cases hls0
        | some l0 =>
          have he : aggStep post ⟨segs, some s0, some l0⟩ (t, false)
              = ⟨segs ++ [⟨round2 s0, round2 (l0 + post)⟩], none, none⟩ := rfl
          rw [he]
          rcases hss s0 rfl with ⟨hr2s0, _, hs0segs, l0', hls0', _, hs0lp⟩
          rcases Option.some.inj hls0' with rfl
          have hnewwf : SegWF ⟨round2 s0, round2 (l0 + post)⟩ := by
            refine ⟨round2_round2 s0, round2_round2 (l0 + post), ?_⟩
            calc round2 s0 = s0 := hr2s0
            _ ≤ round2 (l0 + post) := hs0lp
          have hsegswf : SegsWF (segs ++ [⟨round2 s0, round2 (l0 + post)⟩]) := by
            constructor
            · intro s hs
              rcases List.mem_append.mp hs with hs | hs
              · exact hwf.1 s hs
              · rcases List.mem_singleton.mp hs with rfl
                exact hnewwf
            · rw [List.pairwise_append]
              refine ⟨hwf.2, List.pairwise_singleton _ _, ?_⟩
              intro a ha b hb
              rcases List.mem_singleton.mp hb with rfl
              calc a.start ≤ s0 := hs0segs a ha
              _ = round2 s0 := hr2s0.symm
          refine ih ⟨segs ++ [⟨round2 s0, round2 (l0 + post)⟩], none, none⟩
            hmono2 hle2 ⟨hsegswf, ?_⟩ ?_ ?_ ?_
          · intro s hs
            cases hs
          · intro seg hsg g hg
            rcases List.mem_append.mp hsg with hsg | hsg
            · exact hseg2 seg hsg g hg
            · rcases List.mem_singleton.mp hsg with rfl
              calc round2 s0 = s0 := hr2s0
              _ ≤ round2 g.1 := hstart s0 rfl g (List.mem_cons_of_mem _ hg)
          · intro l hl
            cases hl
          · intro s hs
            cases hs

theorem framesOf_ts_mono (R W : ℕ) (raw : List ℕ) (B : ℕ) :
    (framesOf R W raw B).Pairwise (fun a b => a.1 ≤ b.1) := by
  unfold framesOf
  refine List.Pairwise.map _ ?_ (List.pairwise_lt_range _)
  intro a b hab
  have h1 : a * B ≤ b * B := Nat.mul_le_mul_right B (le_of_lt hab)
  exact qdiv_mono (by exact_mod_cast h1) (Nat.cast_nonneg _)

theorem framesOf_ts_le (R W : ℕ) (raw : List ℕ) (B : ℕ) :
    ∀ f ∈ framesOf R W raw B,
      f.1 ≤ ((raw.length : ℕ) : ℚ) / ((R * W : ℕ) : ℚ) := by
  intro f hf
  unfold framesOf at hf
  rcases List.mem_map.mp hf with ⟨k, hk, rfl⟩
  have hk2 : k < raw.length / B := List.mem_range.mp hk
  rcases Nat.eq_zero_or_pos B with hB0 | hBpos
  · rw [hB0, Nat.div_zero] at hk2
    cases hk2
  · have hmul : (k + 1) * B ≤ raw.length :=
      (Nat.le_div_iff_mul_le hBpos).mp hk2
    have hkB : k * B ≤ raw.length :=
      le_trans (Nat.mul_le_mul_right B (Nat.le_succ k)) hmul
    exact qdiv_mono (by exact_mod_cast hkB) (Nat.cast_nonneg _)

theorem speechFlags_ts_mono (vad : VadFn) (R : ℕ) (fs : List (ℚ × List ℕ))
    (h : fs.Pairwise (fun a b => a.1 ≤ b.1)) :
    (speechFlags vad R fs).Pairwise (fun a b => a.1 ≤ b.1) :=
  List.Pairwise.map _ (fun _ _ hab => hab) h

theorem speechFlags_ts_le (vad : VadFn) (R : ℕ) (fs : List (ℚ × List ℕ))
    (T : ℚ) (h : ∀ f ∈ fs, f.1 ≤ T) :
    ∀ g ∈ speechFlags vad R fs, g.1 ≤ T := by
  intro g hg
  rcases List.mem_map.mp hg with ⟨f, hf, rfl⟩
  exact h f hf

/-- The raw segment list (aggregation plus final close-out) is well-formed
and sorted whenever the labelled frame timestamps are nondecreasing and
bounded by the total duration, and the post-speech padding is
nonnegative. -/
theorem rawSegs_wf (post T : ℚ) (hpost : 0 ≤ post)
    (flags : List (ℚ × Bool))
    (hmono : flags.Pairwise (fun a b => a.1 ≤ b.1))
    (hle : ∀ f ∈ flags, f.1 ≤ T) :
    SegsWF (closeFinal T (aggregate post flags)) := by
  have hinv : StInv post T (aggregate post flags) := by
    refine aggLoop_wf post T hpost flags ⟨[], none, none⟩ hmono hle
      ⟨⟨?_, List.Pairwise.nil⟩, ?_⟩ ?_ ?_ ?_
    · intro s hs
      cases hs
    · intro s hs
      cases hs
    · intro seg hs
      cases hs
    · intro l hl
      cases hl
    · intro s hs
      cases hs
  rcases hinv with ⟨hwf, hss⟩
  unfold closeFinal
  cases hstt : (aggregate post flags).segment_start with
  | none => exact hwf
  | some s0 =>
    rcases hss s0 hstt with ⟨hr2, hsT, hsegs, _⟩
    constructor
    · intro s hs
      rcases List.mem_append.mp hs with hs | hs
      · exact hwf.1 s hs
      · rcases List.mem_singleton.mp hs with rfl
        refine ⟨round2_round2 s0, round2_round2 T, ?_⟩
        rw [hr2]
        exact hsT
    · rw [List.pairwise_append]
      refine ⟨hwf.2, List.pairwise_singleton _ _, ?_⟩
      intro a ha b hb
      rcases List.mem_singleton.mp hb with rfl
      calc a.start ≤ s0 := hsegs a ha
      _ = round2 s0 := hr2.symm

/-- C1: for every audio input (any normalised buffer, any classifier) and
every configuration with `padding_duration_ms >= 0` and
`post_speech_padding_sec >= 0`, the segment list returned by
`detect_segments` satisfies `start <= end` for every segment, and for every
adjacent pair `segments[i].end <= segments[i+1].start` (non-decreasing
start order, no overlap after the merge stage). -/
theorem claim_ordering_nonoverlap (vad : VadFn) (buf : AudioBuffer)
    (fd : ℤ) (pad post : ℚ) (cm : Option ℤ)
    (hpad : 0 ≤ pad) (hpost : 0 ≤ post) :
    (∀ s ∈ detect_segments vad buf fd pad post cm, s.start ≤ s.stop) ∧
    (detect_segments vad buf fd pad post cm).Chain'
      (fun a b => a.stop ≤ b.start) := by
  have hraw : SegsWF (closeFinal (totalDuration buf)
      (aggregate post (flagsOf vad buf fd cm))) := by
    refine rawSegs_wf post (totalDuration buf) hpost _ ?_ ?_
    · exact speechFlags_ts_mono _ _ _ (framesOf_ts_mono _ _ _ _)
    · exact speechFlags_ts_le _ _ _ _ (framesOf_ts_le _ _ _ _)
  rcases mergeSegments_wf pad hpad _ hraw with ⟨hwf, hch⟩
  unfold detect_segments
  exact ⟨fun s hs => (hwf s hs).2.2, hch⟩

/-- Witness for C1 at a concrete input: a one-frame buffer labelled speech
by an always-true classifier, with the source defaults. -/
theorem claim_ordering_nonoverlap_witness :
    (∀ s ∈ detect_segments (fun _ _ => Except.ok true) ⟨100, 1, List.replicate 3 0⟩
        30 300 (1/5) none, s.start ≤ s.stop) ∧
    (detect_segments (fun _ _ => Except.ok true) ⟨100, 1, List.replicate 3 0⟩
        30 300 (1/5) none).Chain' (fun a b => a.stop ≤ b.start) :=
  claim_ordering_nonoverlap (fun _ _ => Except.ok true)
    ⟨100, 1, List.replicate 3 0⟩ 30 300 (1/5) none
    (by norm_num) (by norm_num)

/-- C7: every `start`/`end` value emitted by `detect_segments` (including
ends overwritten during gap merging) is a fixed point of 2-decimal
rounding. -/
theorem claim_rounding_stable (vad : VadFn) (buf : AudioBuffer) (fd : ℤ)
    (pad post : ℚ) (cm : Option ℤ) :
    ∀ s ∈ detect_segments vad buf fd pad post cm,
      round2 s.start = s.start ∧ round2 s.stop = s.stop :=
  detect_segments_stable vad buf fd pad post cm

/-- Witness for C7 at a concrete input: the single produced segment
`(0, 0.03)` has round-stable boundaries. -/
theorem claim_rounding_stable_witness :
    round2 (Segment.mk 0 (3/100)).start = (Segment.mk 0 (3/100)).start ∧
    round2 (Segment.mk 0 (3/100)).stop = (Segment.mk 0 (3/100)).stop :=
  claim_rounding_stable (fun _ _ => Except.ok true) ⟨100, 1, [0, 0, 0]⟩
    30 300 (1/5) none ⟨0, 3/100⟩ (by
      simp [detect_segments, flagsOf, frameBytesOf, effectiveFd, framesOf,
        speechFlags, aggregate, aggStep, closeFinal, mergeSegments, mergeGo,
        totalDuration, round2, roundHalfEven, List.range_succ])

/-- C2: the gap merger is a single left-to-right sweep that merges the next
segment into the running one exactly when the gap is below
`padding_duration_ms / 1000`, setting the running end to the rounded next
end; on the spec's two raw-segment examples with `padding_duration_ms=300`,
`[(0,1),(1.2,2)]` merges to `[(0,2)]` and `[(0,1),(1.5,2)]` is returned
unchanged. -/
theorem claim_merge_rule :
    (∀ (a b : Segment) (pad : ℚ),
      mergeSegments pad [a, b] =
        if b.start - a.stop < pad / 1000 then [⟨a.start, round2 b.stop⟩]
        else [a, b]) ∧
    mergeSegments 300 [⟨0, 1⟩, ⟨1.2, 2⟩] = [⟨0, 2⟩] ∧
    mergeSegments 300 [⟨0, 1⟩, ⟨1.5, 2⟩] = [⟨0, 1⟩, ⟨1.5, 2⟩] := by
  refine ⟨?_, ?_, ?_⟩
  · intro a b pad
    rw [mergeSegments, mergeGo]
    by_cases hm : b.start - a.stop < pad / 1000
    · rw [if_pos hm, if_pos hm]
      rfl
    · rw [if_neg hm, if_neg hm]
      rfl
  · norm_num [mergeSegments, mergeGo, round2, roundHalfEven]
  · norm_num [mergeSegments, mergeGo, round2, roundHalfEven]

theorem mergeGo_ne_nil (thr : ℚ) :
    ∀ (rest : List Segment) (cur : Segment), mergeGo thr cur rest ≠ [] := by
  intro rest
  induction rest with
  | nil =>
    intro cur
    simp [mergeGo]
  | cons seg rest ih =>
    intro cur
    rw [mergeGo]
    by_cases hm : seg.start - cur.stop < thr
    · rw [if_pos hm]
      exact ih _
    · rw [if_neg hm]
      simp

/-- The gap merger preserves the final end value: the last merged segment's
end equals the last raw segment's end (given that raw ends are
round-stable, so re-rounding during a merge is the identity). -/
theorem mergeGo_lastStop (thr : ℚ) :
    ∀ (rest : List Segment) (cur : Segment),
      (∀ s ∈ rest, round2 s.stop = s.stop) →
      (mergeGo thr cur rest).getLast?.map Segment.stop
        = ((cur :: rest).getLast?).map Segment.stop := by
  intro rest
  induction rest with
  | nil =>
    intro cur _
    rfl
  | cons seg rest ih =>
    intro cur hstab
    rw [mergeGo]
    have hstab2 : ∀ s ∈ rest, round2 s.stop = s.stop :=
      fun s hs => hstab s (List.mem_cons_of_mem _ hs)
    by_cases hm : seg.start - cur.stop < thr
    · rw [if_pos hm]
      rw [ih ⟨cur.start, round2 seg.stop⟩ hstab2]
      cases rest with
      | nil =>
        have hs : round2 seg.stop = seg.stop := hstab seg (List.mem_cons_self _ _)
        simp [hs]
      | cons r rs =>
        rw [List.getLast?_cons_cons, List.getLast?_cons_cons,
          List.getLast?_cons_cons]
    · rw [if_neg hm]
      obtain ⟨y, ys, hys⟩ : ∃ y ys, mergeGo thr seg rest = y :: ys := by
        cases hmg : mergeGo thr seg rest with
        | nil => exact absurd hmg (mergeGo_ne_nil thr rest seg)
        | cons y ys => exact ⟨y, ys, rfl⟩
      rw [hys, List.getLast?_cons_cons, ← hys, ih seg hstab2,
        List.getLast?_cons_cons]

/-- If the labelled frame stream ends with a speech-labelled frame, the
aggregation loop finishes with an open run (`segment_start` is set). -/
theorem aggregate_lastFlag_speech (post : ℚ) (flags : List (ℚ × Bool))
    (t : ℚ) (h : flags.getLast? = some (t, true)) :
    ∃ s, (aggregate post flags).segment_start = some s := by
  rcases List.getLast?_eq_some_iff.mp h with ⟨init, rfl⟩
  unfold aggregate
  rw [List.foldl_append, List.foldl_cons, List.foldl_nil]
  cases hss : (List.foldl (aggStep post) ⟨[], none, none⟩ init).segment_start with
  | none =>
    refine ⟨round2 t, ?_⟩
    simp [aggStep, hss]
  | some s0 =>
    refine ⟨s0, ?_⟩
    simp [aggStep, hss]

/-- C3: whenever the frame-label stream ends while a speech run is open
(the last produced frame is speech-labelled), the final returned segment
has `end = round2(total_duration)` with
`total_duration = len(raw_audio) / (sample_rate * sample_width)` — not the
last frame's timestamp, and with no `post_speech_padding_sec` added (the
conclusion does not depend on `post`). -/
theorem claim_trailing_speech (vad : VadFn) (buf : AudioBuffer) (fd : ℤ)
    (pad post : ℚ) (cm : Option ℤ) (t : ℚ)
    (h : (flagsOf vad buf fd cm).getLast? = some (t, true)) :
    ∃ z, (detect_segments vad buf fd pad post cm).getLast? = some z ∧
      z.stop = round2 (totalDuration buf) := by
  rcases aggregate_lastFlag_speech post _ t h with ⟨s, hs⟩
  have hstable := aggLoop_stable post (flagsOf vad buf fd cm) [] none none
    (by intro x hx; cases hx) (by intro x hx; cases hx)
  have hclose : closeFinal (totalDuration buf)
      (aggregate post (flagsOf vad buf fd cm))
      = (aggregate post (flagsOf vad buf fd cm)).segments
        ++ [⟨round2 s, round2 (totalDuration buf)⟩] := by
    unfold closeFinal
    rw [hs]
  unfold detect_segments
  rw [hclose]
  cases hsegs : (aggregate post (flagsOf vad buf fd cm)).segments with
  | nil =>
    refine ⟨⟨round2 s, round2 (totalDuration buf)⟩, ?_, rfl⟩
    simp [mergeSegments, mergeGo]
  | cons a rest =>
    have hstab : ∀ x ∈ rest ++ [(⟨round2 s, round2 (totalDuration buf)⟩ : Segment)],
        round2 x.stop = x.stop := by
      intro x hx
      rcases List.mem_append.mp hx with hx | hx
      · have hx2 : x ∈ (aggregate post (flagsOf vad buf fd cm)).segments := by
          rw [hsegs]
          exact List.mem_cons_of_mem _ hx
        exact (hstable.1 x (by exact hx2)).2
      · rcases List.mem_singleton.mp hx with rfl
        exact round2_round2 _
    have hlast := mergeGo_lastStop (pad / 1000)
      (rest ++ [⟨round2 s, round2 (totalDuration buf)⟩]) a hstab
    have hcons : (a :: (rest ++ [(⟨round2 s, round2 (totalDuration buf)⟩ : Segment)]))
        = (a :: rest) ++ [⟨round2 s, round2 (totalDuration buf)⟩] := by
      simp
    rw [hcons, List.getLast?_concat] at hlast
    rw [List.cons_append, mergeSegments]
    cases hmg : (mergeGo (pad / 1000) a
        (rest ++ [(⟨round2 s, round2 (totalDuration buf)⟩ : Segment)])).getLast? with
    | none =>
      rw [hmg] at hlast
      cases hlast
    | some z =>
      rw [hmg] at hlast
      refine ⟨z, rfl, ?_⟩
      exact Option.some.inj hlast

/-- Witness for C3 at a concrete input: a one-frame all-speech buffer; the
returned segment ends at the rounded total duration. -/
theorem claim_trailing_speech_witness :
    ∃ z, (detect_segments (fun _ _ => Except.ok true) ⟨100, 1, [0, 0, 0]⟩
        30 300 (1/5) none).getLast? = some z ∧
      z.stop = round2 (totalDuration ⟨100, 1, [0, 0, 0]⟩) :=
  claim_trailing_speech (fun _ _ => Except.ok true) ⟨100, 1, [0, 0, 0]⟩
    30 300 (1/5) none 0 (by
      simp [flagsOf, frameBytesOf, effectiveFd, framesOf, speechFlags,
        List.range_succ])

/-- C4: for any `frame_duration_ms` outside 10/20/30 (and no `chunk_ms`
kwarg), `detect_segments` produces exactly the segment list it produces for
`frame_duration_ms = 30` on the same audio and configuration, and the
warning diagnostic is emitted; the embedding is a total function, so no
error is raised. -/
theorem claim_invalid_fd (vad : VadFn) (buf : AudioBuffer) (pad post : ℚ)
    (fd : ℤ) (h : fd ≠ 10 ∧ fd ≠ 20 ∧ fd ≠ 30) :
    detect_segments vad buf fd pad post none
      = detect_segments vad buf 30 pad post none ∧
    detect_segments_warns fd none = true := by
  have he : effectiveFd fd none = effectiveFd 30 none := by
    unfold effectiveFd
    simp [h.1, h.2.1, h.2.2]
  constructor
  · unfold detect_segments flagsOf frameBytesOf
    rw [he]
  · unfold detect_segments_warns
    simp [h.1, h.2.1, h.2.2]

/-- Witness for C4 at the spec's concrete value `frame_duration_ms = 17`. -/
theorem claim_invalid_fd_witness :
    detect_segments (fun _ _ => Except.ok true) ⟨100, 1, [0, 0, 0]⟩
        17 300 (1/5) none
      = detect_segments (fun _ _ => Except.ok true) ⟨100, 1, [0, 0, 0]⟩
        30 300 (1/5) none ∧
    detect_segments_warns 17 none = true :=
  claim_invalid_fd (fun _ _ => Except.ok true) ⟨100, 1, [0, 0, 0]⟩
    300 (1/5) 17 (by decide)

/-- The classifier wrapped in the source's `try/except`: a raised exception
becomes the fail-safe verdict `False` (non-speech). -/
def recoverVad (vad : VadFn) : VadFn := fun frame sr =>
  Except.ok (match vad frame sr with
    | Except.ok b => b
    | Except.error _ => false)

/-- C5: a classifier exception on any subset of frames is absorbed: running
`detect_segments` with a failing classifier equals running it with the
recovered classifier that returns `False` (non-speech) on exactly the
failing frames and never raises; in particular an always-raising classifier
behaves as an always-`False` one.  The embedding is total, so
`detect_segments` itself never raises or aborts. -/
theorem claim_vad_failure_isolated (vad : VadFn) (buf : AudioBuffer)
    (fd : ℤ) (pad post : ℚ) (cm : Option ℤ) :
    detect_segments vad buf fd pad post cm
      = detect_segments (recoverVad vad) buf fd pad post cm ∧
    ∀ e : Unit, detect_segments (fun _ _ => Except.error e) buf fd pad post cm
      = detect_segments (fun _ _ => Except.ok false) buf fd pad post cm :=
  ⟨rfl, fun _ => rfl⟩

/-- If every frame is labelled non-speech, the aggregation loop never
leaves its initial `Idle` state. -/
theorem aggLoop_no_speech (post : ℚ) :
    ∀ (flags : List (ℚ × Bool)) (segs : List Segment) (ls : Option ℚ),
      (∀ f ∈ flags, f.2 = false) →
      List.foldl (aggStep post) ⟨segs, none, ls⟩ flags = ⟨segs, none, ls⟩ := by
  intro flags
  induction flags with
  | nil =>
    intro segs ls _
    rfl
  | cons f rest ih =>
    intro segs ls h
    obtain ⟨t, b⟩ := f
    have hb : b = false := h (t, b) (List.mem_cons_self _ _)
    subst hb
    rw [List.foldl_cons]
    have he : aggStep post ⟨segs, none, ls⟩ (t, false) = ⟨segs, none, ls⟩ := rfl
    rw [he]
    exact ih segs ls (fun g hg => h g (List.mem_cons_of_mem _ hg))

/-- C8: whenever no frame is labelled speech — including the empty buffer
(no frames at all) and an all-non-speech buffer of any length —
`detect_segments` returns the empty list (and, being total, raises no
error). -/
theorem claim_no_speech_empty (vad : VadFn) (buf : AudioBuffer) (fd : ℤ)
    (pad post : ℚ) (cm : Option ℤ)
    (h : ∀ f ∈ flagsOf vad buf fd cm, f.2 = false) :
    detect_segments vad buf fd pad post cm = [] := by
  unfold detect_segments aggregate
  rw [aggLoop_no_speech post _ [] none h]
  rfl

/-- Witness for C8 at a concrete input: a two-frame all-silence buffer
(and, through the same theorem, the empty buffer). -/
theorem claim_no_speech_empty_witness :
    detect_segments (fun _ _ => Except.ok false)
      ⟨100, 1, [0, 0, 0, 0, 0, 0]⟩ 30 300 (1/5) none = [] :=
  claim_no_speech_empty (fun _ _ => Except.ok false)
    ⟨100, 1, [0, 0, 0, 0, 0, 0]⟩ 30 300 (1/5) none (by
      simp [flagsOf, frameBytesOf, effectiveFd, framesOf, speechFlags,
        List.range_succ])

/-- C9: a supplied `chunk_ms` kwarg replaces `frame_duration_ms` before the
10/20/30 validity check, so `detect_segments(audio, chunk_ms = c)` equals
`detect_segments(audio, frame_duration_ms = c)` for every `c`; in
particular `chunk_ms = 100` (as passed by every caller in the repository)
is clamped to 30 ms and the warning is emitted. -/
theorem claim_chunk_ms_override (vad : VadFn) (buf : AudioBuffer)
    (pad post : ℚ) :
    (∀ fd c : ℤ, detect_segments vad buf fd pad post (some c)
        = detect_segments vad buf c pad post none) ∧
    (∀ fd : ℤ, detect_segments vad buf fd pad post (some 100)
        = detect_segments vad buf 30 pad post none ∧
      detect_segments_warns fd (some 100) = true) := by
  constructor
  · intro fd c
    rfl
  · intro fd
    constructor
    · have he : effectiveFd fd (some 100) = effectiveFd 30 none := rfl
      unfold detect_segments flagsOf frameBytesOf
      rw [he]
    · rfl

/-- C10: emitted ends are not clamped to the audio's length.  Concrete
instance: a 6-byte buffer at 100 Hz, one byte per sample (total duration
0.06 s), whose first three 10 ms frames are speech and last three are
silence; the run closes with `last_speech_timestamp = 0.02` and the default
`post_speech_padding_sec = 0.2`, so the emitted end
`round2(0.02 + 0.2) = 0.22` strictly exceeds the total duration. -/
theorem claim_end_exceeds_total :
    detect_segments (fun f _ => Except.ok (f.headD 0 == 1))
        ⟨100, 1, [1, 1, 1, 0, 0, 0]⟩ 10 300 (1/5) none
      = [⟨0, round2 ((2 : ℚ)/100 + 1/5)⟩] ∧
    round2 ((2 : ℚ)/100 + 1/5) = 11/50 ∧
    totalDuration ⟨100, 1, [1, 1, 1, 0, 0, 0]⟩ < 11/50 := by
  refine ⟨?_, ?_, ?_⟩
  · simp [detect_segments, flagsOf, frameBytesOf, effectiveFd, framesOf,
      speechFlags, aggregate, aggStep, closeFinal, mergeSegments, mergeGo,
      totalDuration, round2, roundHalfEven, List.range_succ]
  · norm_num [round2, roundHalfEven, Int.fract]
  · norm_num [totalDuration]
